import Mathlib

/-!
# Verification of the pleiades_accession entity-resolution core

Shallow embedding of the pleiades_accession repository (matching.py,
pleiades.py, candidates.py, scripts/review.py) in Lean 4, with theorems
settling the frozen claims about the natural-language specification.

Modelling conventions:
* Python `dict`s keyed by strings with set values are embedded as
  association lists `List (String × Finset String)` (`SMap` below), with
  first-occurrence lookup semantics mirroring dict lookup.
* Python string operations used by the source (split on a one-character
  separator, strip, startswith/endswith, substring containment) are
  re-implemented over `List Char` so that every definition is executable
  and kernel-reducible.
* Geometries are embedded as finite unions of axis-aligned rational boxes
  (`Geom := List Box`); `extent` is the bounding box, matching shapely's
  notion of the extent of a geometry.  Shapely `STRtree.query` called
  without a predicate (pleiades.py line 377) returns the indices of the
  tree geometries whose extent intersects the extent of the query
  geometry, and `spatial_query` is modelled accordingly.
* Real-valued library calls that cannot be embedded exactly (the
  cosine-based `meters_to_degrees` conversion, the rapidfuzz scorer, and
  `urllib.parse.urlparse(...).netloc`) are threaded as oracle parameters;
  no claim depends on their values.
-/

/-! ## String utilities mirroring the Python string operations -/

/-- `listStarts pat l` is true when `pat` is an initial run of `l`
(Python `str.startswith` on the underlying character list). -/
def listStarts : List Char → List Char → Bool
  | [], _ => true
  | _ :: _, [] => false
  | p :: ps, c :: cs => p == c && listStarts ps cs

/-- `strStarts s pat`: Python `s.startswith(pat)`. -/
def strStarts (s pat : String) : Bool :=
  listStarts pat.data s.data

/-- `strEnds s pat`: Python `s.endswith(pat)`. -/
def strEnds (s pat : String) : Bool :=
  listStarts pat.data.reverse s.data.reverse

/-- `listHasSub pat l`: Python substring containment `pat in l`. -/
def listHasSub (pat : List Char) : List Char → Bool
  | [] => pat.isEmpty
  | c :: cs => listStarts pat (c :: cs) || listHasSub pat cs

/-- `strHasSub s pat`: Python `pat in s`. -/
def strHasSub (s pat : String) : Bool :=
  listHasSub pat.data s.data

/-- Split a character list on a separator character, keeping empty
segments, as Python `str.split(sep)` does for a one-character `sep`. -/
def splitOnChar (sep : Char) : List Char → List (List Char)
  | [] => [[]]
  | c :: cs =>
    let rest := splitOnChar sep cs
    if c == sep then [] :: rest
    else
      match rest with
      | [] => [[c]]
      | seg :: segs => (c :: seg) :: segs

/-- `strSplit s sep`: Python `s.split(sep)` for a one-character separator. -/
def strSplit (s : String) (sep : Char) : List String :=
  (splitOnChar sep s.data).map (fun l => String.mk l)

/-- Python `str.strip()`: remove leading and trailing whitespace. -/
def strTrim (s : String) : String :=
  String.mk (((s.data.dropWhile Char.isWhitespace).reverse.dropWhile
    Char.isWhitespace).reverse)

/-! ## Association maps from strings to string sets

Embedding of the Python pattern

```
try: m[k]
except KeyError: m[k] = set()
m[k].add(v)
```

and of plain dict assignment `m[k] = s`, used by the matcher's vote
dictionary (matching.py) and by the gazetteer indexes (pleiades.py). -/

abbrev Tags := Finset String

/-- A Python `dict[str, set[str]]`, as an association list. -/
abbrev SMap := List (String × Tags)

/-- Dict lookup (first occurrence wins; keys are unique in a dict). -/
def sget : SMap → String → Option Tags
  | [], _ => none
  | (k, s) :: rest, q => if k = q then some s else sget rest q

/-- `m[k].add(v)` after `m.setdefault(k, set())`. -/
def sadd : SMap → String → String → SMap
  | [], k, v => [(k, {v})]
  | (k0, s0) :: rest, k, v =>
    if k0 = k then (k0, insert v s0) :: rest else (k0, s0) :: sadd rest k v

/-- Plain dict assignment `m[k] = s` (overwrites any existing value). -/
def sset : SMap → String → Tags → SMap
  | [], k, s => [(k, s)]
  | (k0, s0) :: rest, k, s =>
    if k0 = k then (k0, s) :: rest else (k0, s0) :: sset rest k s

/-! ## scripts/review.py — the MatchRanker -/

/-- A match record as consumed by `weight` in scripts/review.py: only its
`match_types` list matters to the ranker. -/
structure MatchRecord where
  match_types : List String

/-- `weight(match, weights)` from scripts/review.py lines 71-79: scan the
weight table in order and return the index of the first entry that is a
subset of the match's tag set; return the table length if none is. -/
def weight (m : MatchRecord) : List (Finset String) → Nat
  | [] => 0
  | ws :: rest =>
    if ws ⊆ m.match_types.toFinset then 0 else weight m rest + 1

/-! ## candidates.py — CandidateDataset._load_candidates -/

/-- A raw GeoJSON candidate feature, reduced to its `@id` and an opaque
remainder (the other fields play no role in duplicate detection). -/
structure RawCandidate where
  id : String
  rest : Nat
deriving DecidableEq

/-- Dict lookup in a `dict[str, RawCandidate]`. -/
def cget : List (String × RawCandidate) → String → Option RawCandidate
  | [], _ => none
  | (k, c) :: rest, q => if k = q then some c else cget rest q

/-- Dict assignment `m[k] = c`. -/
def cset : List (String × RawCandidate) → String → RawCandidate →
    List (String × RawCandidate)
  | [], k, c => [(k, c)]
  | (k0, c0) :: rest, k, c =>
    if k0 = k then (k0, c) :: rest else (k0, c0) :: cset rest k c

/-- The feature loop of `CandidateDataset._load_candidates` (candidates.py
lines 162-168): for each feature, look its `@id` up in `self.features`
(which `__init__` set to the empty dict and which the loop never writes),
raising on a hit and otherwise assigning into the local `candidates`
dict.  The final `self.features = candidates` is the returned value. -/
def loadFeaturesLoop (selfFeatures : List (String × RawCandidate)) :
    List RawCandidate → List (String × RawCandidate) →
    Except String (List (String × RawCandidate))
  | [], candidates => .ok candidates
  | f :: rest, candidates =>
    if (cget selfFeatures f.id).isSome then
      .error ("Duplicate candidate feature ID: " ++ f.id)
    else
      loadFeaturesLoop selfFeatures rest (cset candidates f.id f)

/-- `CandidateDataset._load_candidates` on a fresh instance:
`self.features` is the empty dict throughout the loop. -/
def loadCandidates (feats : List RawCandidate) :
    Except String (List (String × RawCandidate)) :=
  loadFeaturesLoop [] feats []

/-! ## Geometry: axis-aligned rational boxes -/

/-- An axis-aligned box with rational bounds. -/
structure Box where
  xmin : ℚ
  xmax : ℚ
  ymin : ℚ
  ymax : ℚ
deriving DecidableEq

/-- A geometry: a finite union of boxes. -/
abbrev Geom := List Box

/-- Smallest box containing two boxes. -/
def mergeBox (a b : Box) : Box :=
  ⟨min a.xmin b.xmin, max a.xmax b.xmax, min a.ymin b.ymin, max a.ymax b.ymax⟩

/-- The extent (bounding box) of a geometry; `none` for the empty
geometry, whose extent is undefined in shapely as well. -/
def extent : Geom → Option Box
  | [] => none
  | b :: bs =>
    match extent bs with
    | none => some b
    | some e => some (mergeBox b e)

/-- Interval overlap on both axes. -/
def boxesOverlap (a b : Box) : Bool :=
  decide (a.xmin ≤ b.xmax) && decide (b.xmin ≤ a.xmax) &&
  decide (a.ymin ≤ b.ymax) && decide (b.ymin ≤ a.ymax)

/-- Extent intersection: the relation computed by `STRtree.query` with no
predicate (every tree geometry whose extent intersects the extent of the
query geometry). -/
def extentIntersects (a b : Geom) : Bool :=
  match extent a, extent b with
  | some ea, some eb => boxesOverlap ea eb
  | _, _ => false

/-- True geometric intersection of two box unions. -/
def geomIntersects (a b : Geom) : Bool :=
  a.any (fun ba => b.any (fun bb => boxesOverlap ba bb))

/-- A box is degenerate when empty on some axis. -/
abbrev Box.valid (b : Box) : Prop := b.xmin ≤ b.xmax ∧ b.ymin ≤ b.ymax

/-- `e` covers `b`: the interval of `e` contains that of `b` on both
axes. -/
def boxCovers (e b : Box) : Prop :=
  e.xmin ≤ b.xmin ∧ b.xmax ≤ e.xmax ∧ e.ymin ≤ b.ymin ∧ b.ymax ≤ e.ymax

/-- shapely `geometry.buffer(r)`, rectilinearly: grow every box by `r`. -/
def bufferGeom (g : Geom) (r : ℚ) : Geom :=
  g.map (fun b => ⟨b.xmin - r, b.xmax + r, b.ymin - r, b.ymax + r⟩)

/-- The latitude of a geometry's centroid.  Only ever fed to the
`meters_to_degrees` oracle, so the approximation (midpoint of the first
box) is irrelevant to every claim. -/
def centroidY (g : Geom) : ℚ :=
  match g with
  | [] => 0
  | b :: _ => (b.ymin + b.ymax) / 2

/-- Concatenate a list of geometries (the GeometryCollection of
pleiades.py line 132). -/
def concatGeoms : List Geom → Geom
  | [] => []
  | g :: gs => g ++ concatGeoms gs

/-- The hull of a collection of buffered geometries (pleiades.py lines
130-142).  The exact hull shape is irrelevant to every claim, so the
concave/convex hull is modelled as the bounding box; the GEOS failure
path (both hull constructions raising) cannot occur in this model and no
claim concerns it. -/
def hullOf (gs : List Geom) : Geom :=
  match extent (concatGeoms gs) with
  | none => []
  | some e => [e]

/-! ## pleiades.py — PleiadesPlace -/

/-- One entry of a place's `locations` array, as read by
`PleiadesPlace.footprint`: `geometry` (GeoJSON or null), `accuracy_value`
(meters or null) and the `accuracy` source string. -/
structure RawLocation where
  locId : String
  geometry : Option Geom
  accuracy_value : Option ℚ
  accuracy : String
deriving DecidableEq

/-- One entry of a place's `names` array: `attested` (string or null) and
the comma-separated `romanized` forms. -/
structure RawName where
  attested : Option String
  romanized : String
deriving DecidableEq

/-- A raw Pleiades place record.  `location_precisions` holds
`features[i].properties.location_precision`, the list the source indexes
positionally in parallel with `locations` (pleiades.py line 110); the
LPF format guarantees the two arrays are parallel. -/
structure RawPlace where
  pid : String
  title : String
  locations : List RawLocation
  location_precisions : List String
  names : List RawName
  references : List String
deriving DecidableEq

/-- `PleiadesPlace.title`: the stripped raw title. -/
def titleOf (p : RawPlace) : String := strTrim p.title

/-- The title-derived name strings of `PleiadesPlace.name_strings`
(pleiades.py lines 72-75): split the title on `/`, strip, drop empties,
and keep every part unless it starts with `"()"` and ends with `")"`
(the condition exactly as written in the source). -/
def titleNameStrings (title : String) : List String :=
  (((strSplit title '/').map strTrim).filter (fun t => !(t == ""))).filter
    (fun t => !(strStarts t "()" && strEnds t ")"))

/-- The names-array-derived name strings of `PleiadesPlace.name_strings`
(pleiades.py lines 76-86): the stripped attested form when non-null and
non-empty, plus each stripped non-empty comma-separated romanized form. -/
def nameListStrings : List RawName → List String
  | [] => []
  | n :: rest =>
    (match n.attested with
     | none => []
     | some a => if strTrim a = "" then [] else [strTrim a]) ++
    ((strSplit n.romanized ',').map strTrim).filter (fun r => !(r == "")) ++
    nameListStrings rest

/-- `PleiadesPlace.name_strings` (a Python set; modelled as a list, with
membership as the set semantics). -/
def nameStrings (p : RawPlace) : List String :=
  titleNameStrings (titleOf p) ++ nameListStrings p.names

/-- The location/precision pairs with a non-null geometry flagged
`precise` — the `geometries` dict of pleiades.py lines 106-113. -/
def preciseLocs (p : RawPlace) : List (RawLocation × String) :=
  (p.locations.zip p.location_precisions).filter
    (fun lp => lp.1.geometry.isSome && (lp.2 == "precise"))

/-- The buffered-geometries loop of `PleiadesPlace.footprint`
(pleiades.py lines 115-129): for each precise location, a null
`accuracy_value` raises; a location whose `accuracy` source mentions
`darmc` has its accuracy floored at 2000 m; the geometry is buffered by
`meters_to_degrees(accuracy_value, centroid.y)` (the conversion is the
oracle `m2d`). -/
def bufferedGeoms (m2d : ℚ → ℚ → ℚ) (pid : String) :
    List (RawLocation × String) → Except String (List Geom)
  | [] => .ok []
  | lp :: rest =>
    match lp.1.geometry with
    | none => bufferedGeoms m2d pid rest
    | some g =>
      match lp.1.accuracy_value with
      | none =>
        .error ("Location " ++ lp.1.locId ++ " on " ++ pid ++
          " has no accuracy_value")
      | some acc =>
        let acc := if strHasSub lp.1.accuracy "darmc" then max acc 2000 else acc
        match bufferedGeoms m2d pid rest with
        | .error e => .error e
        | .ok gs => .ok (bufferGeom g (m2d acc (centroidY g)) :: gs)

/-- `PleiadesPlace.footprint` (pleiades.py lines 89-152), on the
cache-miss path (the disk cache and its 24h TTL are I/O and not
modelled): buffer every precise location, then hull the collection; with
no precise locations the footprint is `None` and no error is raised. -/
def footprint (m2d : ℚ → ℚ → ℚ) (p : RawPlace) :
    Except String (Option Geom) :=
  match bufferedGeoms m2d p.pid (preciseLocs p) with
  | .error e => .error e
  | .ok [] => .ok none
  | .ok gs => .ok (some (hullOf gs))

/-! ## pleiades.py — the Pleiades indexes -/

/-- The trimmed, non-empty `accessURI` values of a place's references
(pleiades.py lines 251-254). -/
def cleanRefs (p : RawPlace) : List String :=
  (p.references.map strTrim).filter (fun u => !(u == ""))

/-- Inner loop of `_initialize_names_index`: add every name string of one
place to the names index. -/
def addNamesFor (pid : String) : List String → SMap → SMap
  | [], idx => idx
  | n :: rest, idx => addNamesFor pid rest (sadd idx n pid)

/-- `Pleiades._initialize_names_index` (pleiades.py lines 273-280),
threaded over an accumulator for the single pass over all places. -/
def buildNamesIndex : List RawPlace → SMap → SMap
  | [], idx => idx
  | p :: rest, idx => buildNamesIndex rest (addNamesFor p.pid (nameStrings p) idx)

/-- Inner loop of `_initialize_links_index` for the forward index
`uri → set(pid)`. -/
def addFwdFor (pid : String) : List String → SMap → SMap
  | [], idx => idx
  | u :: rest, idx => addFwdFor pid rest (sadd idx u pid)

/-- The forward link index `_links_index` of
`Pleiades._initialize_links_index` (pleiades.py lines 243-261). -/
def buildLinksIndex : List RawPlace → SMap → SMap
  | [], idx => idx
  | p :: rest, idx => buildLinksIndex rest (addFwdFor p.pid (cleanRefs p) idx)

/-- Inner loop of `_initialize_links_index` for the reverse index
`pid → set(uri)`. -/
def addRevFor (pid : String) : List String → SMap → SMap
  | [], idx => idx
  | u :: rest, idx => addRevFor pid rest (sadd idx pid u)

/-- The reverse link index `_links_by_pids`: each place first gets an
explicit empty entry (`self._links_by_pids[pid] = set()`, line 249), then
its cleaned reference URIs. -/
def buildLinksByPid : List RawPlace → SMap → SMap
  | [], idx => idx
  | p :: rest, idx =>
    buildLinksByPid rest (addRevFor p.pid (cleanRefs p) (sset idx p.pid ∅))

/-- `Pleiades.get_links_by_pid` (pleiades.py lines 225-234): the reverse
link set of a pid, optionally filtered to one netloc (`netlocOf` is the
`urlparse(...).netloc` oracle); a missing pid yields the empty set, and
an empty `target` string (Python falsy) skips the filter. -/
def get_links_by_pid (netlocOf : String → String) (idx : SMap)
    (pid target : String) : Tags :=
  match sget idx pid with
  | none => ∅
  | some links =>
    if target = "" then links else links.filter (fun l => netlocOf l = target)

/-- `Pleiades._initialize_spatial_index` (pleiades.py lines 285-299):
walk the places, compute each footprint, and keep `(pid, footprint)` for
every place whose footprint is truthy (non-null and non-empty); the
STRtree plus its integer-position-to-pid side table is modelled as this
association list.  A footprint error aborts the build. -/
def buildSpatial (m2d : ℚ → ℚ → ℚ) :
    List RawPlace → Except String (List (String × Geom))
  | [] => .ok []
  | p :: rest =>
    match footprint m2d p with
    | .error e => .error e
    | .ok none => buildSpatial m2d rest
    | .ok (some g) =>
      if g.isEmpty then buildSpatial m2d rest
      else
        match buildSpatial m2d rest with
        | .error e => .error e
        | .ok idx => .ok ((p.pid, g) :: idx)

/-- `Pleiades.spatial_query` (pleiades.py lines 373-379):
`STRtree.query(geometry)` with no predicate returns the tree geometries
whose extent intersects the query geometry's extent; the result is mapped
through the side table to pids. -/
def spatial_query (idx : List (String × Geom)) (g : Geom) : List String :=
  (idx.filter (fun e => extentIntersects e.2 g)).map Prod.fst

/-! ## matching.py — the Matcher -/

/-- A candidate feature as consumed by `Matcher.match`: the dict key
`cid` (the candidate's `@id` URI), its geometry, its name strings and its
expanded absolute link URIs. -/
structure Candidate (G : Type) where
  cid : String
  geometry : G
  name_strings : List String
  links : List String

/-- The Pleiades query interface consumed by `Matcher.match`, plus the
oracles for the operations that are not exactly embeddable:
`buffered` is `geometry.buffer(meters_to_degrees(spatial_buffer * 1000,
centroid.y))` (matching.py lines 105-109), `netlocOf` is
`urlparse(...).netloc`, `names_lookup` is `names_index.get(·, set())`,
and `fuzzy_extract` is `rapidfuzz.process.extract` over the names-index
keys, returning matched name strings (always keys of the index). -/
structure MatchEnv (G : Type) where
  get_links_by_pid : String → String → List String
  get_pid_by_link : String → List String
  spatial_query : G → List String
  spatial_nearest : G → List String
  buffered : G → G
  netlocOf : String → String
  names_lookup : String → List String
  fuzzy_extract : String → List String

/-- Python `"pleiades.stoa.org" in link` (matching.py line 61). -/
def isPleiadesLink (l : String) : Bool := strHasSub l "pleiades.stoa.org"

/-- Pid extraction `[p for p in puri.split("/") if p][-1]` (line 63);
the default is unreachable because a pleiades link has a non-empty
segment. -/
def pidOf (puri : String) : String :=
  (((strSplit puri '/').filter (fun s => !(s == ""))).getLast?).getD ""

/-- The candidate's pleiades links (line 61). -/
def plinksOf {G : Type} (cand : Candidate G) : List String :=
  cand.links.filter isPleiadesLink

/-- The candidate's non-pleiades links (line 91). -/
def nonPlinksOf {G : Type} (cand : Candidate G) : List String :=
  cand.links.filter (fun l => !(isPleiadesLink l))

/-- The reciprocal-link condition (lines 73-79): the candidate's id is in
the place's reverse link set filtered to the candidate's netloc. -/
abbrev recipCond {G : Type} (env : MatchEnv G) (cid pid : String) : Prop :=
  cid ∈ env.get_links_by_pid pid (env.netlocOf cid)

/-- Votes for one candidate: the `match_votes` dict `pid → set(tag)`. -/
abbrev Votes := SMap

/-- The vote bookkeeping of the first-order/reciprocal link loop
(matching.py lines 62-81): each pleiades link tags its pid
`first-order link`, plus `reciprocal link` when the reciprocal condition
holds. -/
def firstOrderVotes {G : Type} (env : MatchEnv G) (cid : String) :
    List String → Votes → Votes
  | [], votes => votes
  | puri :: rest, votes =>
    let pid := pidOf puri
    let votes := sadd votes pid "first-order link"
    let votes :=
      if recipCond env cid pid then sadd votes pid "reciprocal link" else votes
    firstOrderVotes env cid rest votes

/-- The `skip_other_tests` flag after the link loop (lines 59-81): set
exactly when some pleiades link's pid satisfies the reciprocal
condition. -/
def firstOrderSkip {G : Type} (env : MatchEnv G) (cid : String)
    (plinks : List String) : Bool :=
  plinks.any (fun puri => decide (recipCond env cid (pidOf puri)))

/-- The pids receiving a first-order-link vote. -/
def foPids {G : Type} (cand : Candidate G) : List String :=
  (plinksOf cand).map pidOf

/-- Union of the lookups of a list of keys (Python set-union loops). -/
def lookupAll (f : String → List String) : List String → List String
  | [] => []
  | n :: rest => f n ++ lookupAll f rest

/-- Tag each pid of a list (the `try/except/add` loops of matching.py). -/
def addTagPass (tag : String) : List String → Votes → Votes
  | [], votes => votes
  | p :: rest, votes => addTagPass tag rest (sadd votes p tag)

/-- The second-order link loop (matching.py lines 90-102): every
gazetteer pid sharing a non-pleiades URI is tagged `second-order link`
(an empty lookup is a no-op, like the source's `continue`). -/
def secondOrderVotes {G : Type} (env : MatchEnv G) :
    List String → Votes → Votes
  | [], votes => votes
  | uri :: rest, votes =>
    secondOrderVotes env rest
      (addTagPass "second-order link" (env.get_pid_by_link uri) votes)

/-- The pids receiving a second-order-link vote. -/
def soPids {G : Type} (env : MatchEnv G) (uris : List String) : List String :=
  lookupAll env.get_pid_by_link uris

/-- The spatial loop (matching.py lines 110-115): NOTE that
`match_votes[pid] = {"footprint"}` is a plain dict assignment that
overwrites any tags the pid already had. -/
def spatialPass : List String → Votes → Votes
  | [], votes => votes
  | p :: rest, votes => spatialPass rest (sset votes p {"footprint"})

/-- The spatial hits of a candidate: `spatial_query` on the buffered
candidate geometry (matching.py line 110). -/
def sqOf {G : Type} (env : MatchEnv G) (cand : Candidate G) : List String :=
  env.spatial_query (env.buffered cand.geometry)

/-- `spatial_matched_pids` as of line 128: the spatial-query hits, or the
`spatial_nearest` fallback when the query came back empty (lines
117-126). -/
def smOf {G : Type} (env : MatchEnv G) (cand : Candidate G) : List String :=
  if (sqOf env cand).isEmpty then env.spatial_nearest cand.geometry
  else sqOf env cand

/-- `name_matched_pids` (matching.py lines 129-133). -/
def exactHits {G : Type} (env : MatchEnv G) (cand : Candidate G) :
    List String :=
  lookupAll env.names_lookup cand.name_strings

/-- `name_fuzzy_matched_pids` before intersection (lines 146-159): the
pids of every name the fuzzy scorer returned for some candidate name. -/
def fuzzyPids {G : Type} (env : MatchEnv G) (cand : Candidate G) :
    List String :=
  lookupAll env.names_lookup (lookupAll env.fuzzy_extract cand.name_strings)

/-- `name_fuzzy_matched_pids` after the guard and intersection of lines
160-164: empty when there were no fuzzy hits; intersected with
`spatial_matched_pids` when the latter is non-empty. -/
def fuzzyFinal {G : Type} (env : MatchEnv G) (cand : Candidate G) :
    List String :=
  if (fuzzyPids env cand).isEmpty then []
  else if (smOf env cand).isEmpty then fuzzyPids env cand
  else (smOf env cand).filter (fun p => decide (p ∈ fuzzyPids env cand))

/-- The `matched` set as of line 165, built by the `matched.add/update`
calls at lines 71, 102, 115, 126 and 140-143: link pids, spatial pids,
nearest pids (only when the spatial query was empty), and exact-name
pids (intersected with `spatial_matched_pids` when that is
non-empty). -/
def matchedBF {G : Type} (env : MatchEnv G) (cand : Candidate G) :
    List String :=
  foPids cand ++ soPids env (nonPlinksOf cand) ++ sqOf env cand ++
  (if (sqOf env cand).isEmpty then env.spatial_nearest cand.geometry
   else []) ++
  (if (smOf env cand).isEmpty then exactHits env cand
   else (smOf env cand).filter (fun p => decide (p ∈ exactHits env cand)))

/-- The fuzzy-name tagging loop (matching.py lines 165-171): tag only the
pids already in `matched`. -/
def fuzzyPass (matched : List String) : List String → Votes → Votes
  | [], votes => votes
  | p :: rest, votes =>
    fuzzyPass matched rest
      (if p ∈ matched then sadd votes p "fuzzy name" else votes)

/-- The nearest-fallback tagging loop (matching.py lines 118-126). -/
def nearestPass (nr : List String) (votes : Votes) : Votes :=
  addTagPass "nearest" nr votes

/-- The exact-name tagging loop (matching.py lines 134-139): every
exact-name hit is tagged, whether or not it is a spatial hit. -/
def exactPass (ex : List String) (votes : Votes) : Votes :=
  addTagPass "exact name" ex votes

/-- `Matcher.match` for a single candidate (matching.py lines 52-174):
link signals, then — unless a reciprocal link short-circuits — the
second-order, spatial, nearest-fallback, exact-name and fuzzy-name
signals, in source order.  (The source's final `matched.update` at line
172 does not affect the returned votes and is omitted.) -/
def matchCandidate {G : Type} (env : MatchEnv G) (cand : Candidate G) :
    Votes :=
  let plinks := plinksOf cand
  let votes1 := firstOrderVotes env cand.cid plinks []
  if firstOrderSkip env cand.cid plinks then votes1
  else
    let votes2 := secondOrderVotes env (nonPlinksOf cand) votes1
    let sq := sqOf env cand
    let votes3 := spatialPass sq votes2
    let votes4 :=
      if sq.isEmpty then
        nearestPass (env.spatial_nearest cand.geometry) votes3
      else votes3
    let votes5 := exactPass (exactHits env cand) votes4
    fuzzyPass (matchedBF env cand) (fuzzyFinal env cand) votes5

/-- `Matcher.match` over all candidates: `match_vote_totals`, keyed by
candidate id. -/
def matchAll {G : Type} (env : MatchEnv G) (cands : List (Candidate G)) :
    List (String × Votes) :=
  cands.map (fun c => (c.cid, matchCandidate env c))

/-- The fixed tag vocabulary of the vote sets. -/
def tagVocabulary : Finset String :=
  {"footprint", "nearest", "exact name", "fuzzy name", "first-order link",
   "second-order link", "reciprocal link"}

/-! ### Closed-form vote formulas, stage by stage

These mirror the cumulative effect of the matcher's passes on one pid
and are proved equal to `matchCandidate`'s bookkeeping below. -/

/-- Tags contributed to a pid by the link loop. -/
def foTagsOf {G : Type} (env : MatchEnv G) (cid pid : String) : Tags :=
  insert "first-order link"
    (if recipCond env cid pid then {"reciprocal link"} else ∅)

/-- Vote entry after the first-order/reciprocal loop. -/
def voteAfterLinks {G : Type} (env : MatchEnv G) (cand : Candidate G)
    (q : String) : Option Tags :=
  if q ∈ foPids cand then some (foTagsOf env cand.cid q) else none

/-- Vote entry after the second-order loop. -/
def voteAfterSecond {G : Type} (env : MatchEnv G) (cand : Candidate G)
    (q : String) : Option Tags :=
  if q ∈ soPids env (nonPlinksOf cand) then
    some (insert "second-order link" ((voteAfterLinks env cand q).getD ∅))
  else voteAfterLinks env cand q

/-- Vote entry after the spatial overwrite. -/
def voteAfterSpatial {G : Type} (env : MatchEnv G) (cand : Candidate G)
    (q : String) : Option Tags :=
  if q ∈ sqOf env cand then some {"footprint"} else voteAfterSecond env cand q

/-- Vote entry after the nearest fallback. -/
def voteAfterNearest {G : Type} (env : MatchEnv G) (cand : Candidate G)
    (q : String) : Option Tags :=
  if (sqOf env cand).isEmpty ∧ q ∈ env.spatial_nearest cand.geometry then
    some (insert "nearest" ((voteAfterSpatial env cand q).getD ∅))
  else voteAfterSpatial env cand q

/-- Vote entry after the exact-name pass. -/
def voteAfterExact {G : Type} (env : MatchEnv G) (cand : Candidate G)
    (q : String) : Option Tags :=
  if q ∈ exactHits env cand then
    some (insert "exact name" ((voteAfterNearest env cand q).getD ∅))
  else voteAfterNearest env cand q

/-- Vote entry after the fuzzy pass: the final entry of a
non-short-circuited candidate. -/
def voteFormula {G : Type} (env : MatchEnv G) (cand : Candidate G)
    (q : String) : Option Tags :=
  if q ∈ fuzzyFinal env cand ∧ q ∈ matchedBF env cand then
    some (insert "fuzzy name" ((voteAfterExact env cand q).getD ∅))
  else voteAfterExact env cand q

/-! ## Concrete instances used to evaluate the model on explicit inputs -/

/-- Environment with a reciprocal link for pid `12345` from candidate
`https://example.org/p/7`. -/
def envC1 : MatchEnv Unit :=
  ⟨fun pid nl =>
      if pid = "12345" ∧ nl = "example.org" then ["https://example.org/p/7"]
      else [],
    fun _ => [], fun _ => [], fun _ => [], id,
    fun s => if s = "https://example.org/p/7" then "example.org" else "",
    fun _ => [], fun _ => []⟩

/-- Candidate whose only link is a first-order pleiades link to `12345`. -/
def candC1 : Candidate Unit :=
  ⟨"https://example.org/p/7", (), [], ["https://pleiades.stoa.org/places/12345"]⟩

/-- Environment where geometry `g1` has a spatial hit on pid `1`, no
reciprocal links exist, and the fuzzy scorer sends name `foo` to index
key `bar`, which resolves to pid `2`. -/
def envC2 : MatchEnv String :=
  ⟨fun _ _ => [], fun _ => [],
    fun g => if g = "g1" then ["1"] else [],
    fun _ => [], id, fun _ => "",
    fun n => if n = "bar" then ["2"] else [],
    fun n => if n = "foo" then ["bar"] else []⟩

/-- Candidate with a first-order link to pid `1` whose buffered geometry
also intersects pid `1`'s footprint. -/
def candC2a : Candidate String :=
  ⟨"c1", "g1", [], ["https://pleiades.stoa.org/places/1"]⟩

/-- Candidate with no links, no spatial hits and no exact-name hits whose
only signal is a fuzzy-name hit on pid `2`. -/
def candC2b : Candidate String :=
  ⟨"c2", "g2", ["foo"], []⟩

/-- Environment with a spatial hit on pid `5` and a fuzzy-name hit on the
same pid via index key `m`. -/
def envC4 : MatchEnv Unit :=
  ⟨fun _ _ => [], fun _ => [], fun _ => ["5"], fun _ => [], id, fun _ => "",
    fun n => if n = "m" then ["5"] else [],
    fun n => if n = "n" then ["m"] else []⟩

/-- Candidate with one name string `n` and no links. -/
def candC4 : Candidate Unit :=
  ⟨"c4", (), ["n"], []⟩

/-- An L-shaped (non-convex) footprint: the union of a horizontal and a
vertical bar, as a concave hull may well be. -/
def geomL : Geom := [⟨0, 3, 0, 1⟩, ⟨0, 1, 0, 3⟩]

/-- A degenerate point geometry at (3, 3): inside the extent of `geomL`
but outside `geomL` itself. -/
def geomPt : Geom := [⟨3, 3, 3, 3⟩]

/-- A place with one precise-flagged location whose `accuracy_value` is
null. -/
def placeC8 : RawPlace :=
  ⟨"p8", "T", [⟨"loc1", some [⟨0, 0, 0, 0⟩], none, "related"⟩],
    ["precise"], [], []⟩

/-- A place with no precise geometry (its only location has a null
geometry and `rough` precision) but with names and a reference. -/
def placeC9 : RawPlace :=
  ⟨"p9", "Alpha", [⟨"l1", none, none, ""⟩], ["rough"],
    [⟨some "Beta", "Gamma, Delta"⟩], [" https://ex.org/x ", ""]⟩

/-! ## Theorems -/

/-! ### Association-map lemmas -/

theorem sget_sadd (m : SMap) (k v q : String) :
    sget (sadd m k v) q =
      if q = k then some (insert v ((sget m q).getD ∅)) else sget m q := by
  induction m with
  | nil =>
    by_cases h : q = k
    · subst h; simp [sadd, sget]
    · simp [sadd, sget, h, Ne.symm h]
  | cons hd tl ih =>
    obtain ⟨k0, s0⟩ := hd
    by_cases h0 : k0 = k
    · subst h0
      by_cases hq : q = k0
      · subst hq; simp [sadd, sget]
      · simp [sadd, sget, hq, Ne.symm hq]
    · by_cases hq : q = k0
      · subst hq
        simp [sadd, sget, h0, Ne.symm h0]
      · simp [sadd, sget, h0, hq, Ne.symm hq, ih]

theorem sget_sset (m : SMap) (k : String) (s : Tags) (q : String) :
    sget (sset m k s) q = if q = k then some s else sget m q := by
  induction m with
  | nil =>
    by_cases h : q = k
    · subst h; simp [sset, sget]
    · simp [sset, sget, h, Ne.symm h]
  | cons hd tl ih =>
    obtain ⟨k0, s0⟩ := hd
    by_cases h0 : k0 = k
    · subst h0
      by_cases hq : q = k0
      · subst hq; simp [sset, sget]
      · simp [sset, sget, hq, Ne.symm hq]
    · by_cases hq : q = k0
      · subst hq
        simp [sset, sget, h0, Ne.symm h0]
      · simp [sset, sget, h0, hq, Ne.symm hq, ih]

/-! ### Pass-level vote lemmas -/

theorem sget_addTagPass (tag : String) (l : List String) (m : Votes)
    (q : String) :
    sget (addTagPass tag l m) q =
      if q ∈ l then some (insert tag ((sget m q).getD ∅)) else sget m q := by
  induction l generalizing m with
  | nil => simp [addTagPass]
  | cons a rest ih =>
    simp only [addTagPass]
    rw [ih, sget_sadd]
    by_cases hr : q ∈ rest
    · by_cases ha : q = a
      · subst ha; simp [hr]
      · simp [hr, ha]
    · by_cases ha : q = a
      · subst ha; simp [hr]
      · simp [hr, ha, List.mem_cons]

theorem sget_spatialPass (l : List String) (m : Votes) (q : String) :
    sget (spatialPass l m) q =
      if q ∈ l then some {"footprint"} else sget m q := by
  induction l generalizing m with
  | nil => simp [spatialPass]
  | cons a rest ih =>
    simp only [spatialPass]
    rw [ih, sget_sset]
    by_cases hr : q ∈ rest
    · simp [hr]
    · by_cases ha : q = a
      · subst ha; simp [hr]
      · simp [hr, ha, List.mem_cons]

theorem sget_fuzzyPass (matched l : List String) (m : Votes) (q : String) :
    sget (fuzzyPass matched l m) q =
      if q ∈ l ∧ q ∈ matched then
        some (insert "fuzzy name" ((sget m q).getD ∅))
      else sget m q := by
  induction l generalizing m with
  | nil => simp [fuzzyPass]
  | cons a rest ih =>
    simp only [fuzzyPass]
    by_cases haa : a ∈ matched
    · rw [if_pos haa, ih, sget_sadd]
      by_cases hm : q ∈ matched
      · by_cases ha : q = a
        · subst ha
          by_cases hr : q ∈ rest <;> simp [hm, hr]
        · simp [ha, List.mem_cons, hm]
      · have hqa : ¬ q = a := by rintro rfl; exact hm haa
        simp [hm, hqa]
    · rw [if_neg haa, ih]
      by_cases hm : q ∈ matched
      · by_cases ha : q = a
        · subst ha; exact absurd hm haa
        · simp [ha, List.mem_cons, hm]
      · simp [hm]

theorem sget_secondOrderVotes {G : Type} (env : MatchEnv G)
    (uris : List String) (m : Votes) (q : String) :
    sget (secondOrderVotes env uris m) q =
      if q ∈ soPids env uris then
        some (insert "second-order link" ((sget m q).getD ∅))
      else sget m q := by
  induction uris generalizing m with
  | nil => simp [secondOrderVotes, soPids, lookupAll]
  | cons u rest ih =>
    simp only [secondOrderVotes]
    rw [ih, sget_addTagPass]
    by_cases hr : q ∈ soPids env rest
    · by_cases hu : q ∈ env.get_pid_by_link u
      · simp [soPids, lookupAll, hr, hu]
      · simp [soPids, lookupAll, hr, hu]
    · by_cases hu : q ∈ env.get_pid_by_link u
      · simp [soPids, lookupAll, hr, hu]
      · simp [soPids, lookupAll, hr, hu]

theorem mem_lookupAll (f : String → List String) (l : List String)
    (q : String) : q ∈ lookupAll f l ↔ ∃ n ∈ l, q ∈ f n := by
  induction l with
  | nil => simp [lookupAll]
  | cons a rest ih => simp [lookupAll, ih]

theorem sget_firstOrderVotes {G : Type} (env : MatchEnv G) (cid : String)
    (l : List String) (m : Votes) (q : String) :
    sget (firstOrderVotes env cid l m) q =
      if q ∈ l.map pidOf then some (foTagsOf env cid q ∪ (sget m q).getD ∅)
      else sget m q := by
  induction l generalizing m with
  | nil => simp [firstOrderVotes]
  | cons puri rest ih =>
    have hstep : ∀ (mm : Votes) (qq : String),
        sget (if recipCond env cid (pidOf puri) then
                sadd (sadd mm (pidOf puri) "first-order link") (pidOf puri)
                  "reciprocal link"
              else sadd mm (pidOf puri) "first-order link") qq =
          if qq = pidOf puri then
            some (foTagsOf env cid qq ∪ (sget mm qq).getD ∅)
          else sget mm qq := by
      intro mm qq
      by_cases hqq : qq = pidOf puri
      · subst hqq
        by_cases hrec : recipCond env cid (pidOf puri)
        · have hx : ∀ X : Tags,
              insert "reciprocal link" (insert "first-order link" X) =
                foTagsOf env cid (pidOf puri) ∪ X := by
            intro X
            ext x
            simp only [foTagsOf, hrec, if_true, Finset.mem_insert,
              Finset.mem_union, Finset.mem_singleton]
            tauto
          simp [sget_sadd, hrec, hx]
        · have hx : ∀ X : Tags,
              insert "first-order link" X =
                foTagsOf env cid (pidOf puri) ∪ X := by
            intro X
            ext x
            simp only [foTagsOf, hrec, if_false, Finset.mem_insert,
              Finset.mem_union, Finset.not_mem_empty, or_false]
          simp [sget_sadd, hrec, hx]
      · by_cases hrec : recipCond env cid (pidOf puri) <;>
          simp [sget_sadd, hrec, hqq]
    simp only [firstOrderVotes]
    rw [ih]
    simp only [hstep, List.map_cons, List.mem_cons]
    by_cases hq : q = pidOf puri
    · by_cases hr : q ∈ rest.map pidOf
      · rw [if_pos hr, if_pos (Or.inr hr), if_pos hq, Option.getD_some,
          ← Finset.union_assoc, Finset.union_self]
      · rw [if_neg hr, if_pos hq, if_pos (Or.inl hq)]
    · by_cases hr : q ∈ rest.map pidOf
      · rw [if_pos hr, if_neg hq, if_pos (Or.inr hr)]
      · rw [if_neg hr, if_neg hq, if_neg (not_or_intro hq hr)]

theorem firstOrderSkip_iff {G : Type} (env : MatchEnv G) (cid : String)
    (plinks : List String) :
    firstOrderSkip env cid plinks = true ↔
      ∃ puri ∈ plinks, recipCond env cid (pidOf puri) := by
  simp [firstOrderSkip]

theorem firstOrderVotes_env_eq {G : Type} (env env' : MatchEnv G)
    (hl : env'.get_links_by_pid = env.get_links_by_pid)
    (hn : env'.netlocOf = env.netlocOf) (cid : String) (l : List String)
    (m : Votes) :
    firstOrderVotes env' cid l m = firstOrderVotes env cid l m := by
  induction l generalizing m with
  | nil => rfl
  | cons puri rest ih =>
    simp only [firstOrderVotes, recipCond, hl, hn]
    exact ih _

theorem firstOrderSkip_env_eq {G : Type} (env env' : MatchEnv G)
    (hl : env'.get_links_by_pid = env.get_links_by_pid)
    (hn : env'.netlocOf = env.netlocOf) (cid : String) (l : List String) :
    firstOrderSkip env' cid l = firstOrderSkip env cid l := by
  simp only [firstOrderSkip, recipCond, hl, hn]

/-- The master characterization: the vote entry of any pid after
`matchCandidate`, as a closed formula. -/
theorem sget_matchCandidate {G : Type} (env : MatchEnv G)
    (cand : Candidate G) (q : String) :
    sget (matchCandidate env cand) q =
      if firstOrderSkip env cand.cid (plinksOf cand) then
        voteAfterLinks env cand q
      else voteFormula env cand q := by
  have h1 : ∀ r, sget (firstOrderVotes env cand.cid (plinksOf cand) []) r =
      voteAfterLinks env cand r := by
    intro r
    rw [sget_firstOrderVotes]
    simp [voteAfterLinks, foPids, sget]
  by_cases hskip : firstOrderSkip env cand.cid (plinksOf cand)
  · simp only [matchCandidate, if_pos hskip]
    exact h1 q
  · have h2 : ∀ r,
        sget (secondOrderVotes env (nonPlinksOf cand)
          (firstOrderVotes env cand.cid (plinksOf cand) [])) r =
        voteAfterSecond env cand r := by
      intro r
      rw [sget_secondOrderVotes]
      simp only [h1, voteAfterSecond]
    have h3 : ∀ r,
        sget (spatialPass (sqOf env cand)
          (secondOrderVotes env (nonPlinksOf cand)
            (firstOrderVotes env cand.cid (plinksOf cand) []))) r =
        voteAfterSpatial env cand r := by
      intro r
      rw [sget_spatialPass]
      simp only [h2, voteAfterSpatial]
    have h4 : ∀ r,
        sget (if (sqOf env cand).isEmpty then
                nearestPass (env.spatial_nearest cand.geometry)
                  (spatialPass (sqOf env cand)
                    (secondOrderVotes env (nonPlinksOf cand)
                      (firstOrderVotes env cand.cid (plinksOf cand) [])))
              else
                spatialPass (sqOf env cand)
                  (secondOrderVotes env (nonPlinksOf cand)
                    (firstOrderVotes env cand.cid (plinksOf cand) []))) r =
        voteAfterNearest env cand r := by
      intro r
      by_cases hsq : (sqOf env cand).isEmpty
      · rw [if_pos hsq]
        unfold nearestPass
        rw [sget_addTagPass]
        simp only [h3, voteAfterNearest, hsq, true_and]
      · rw [if_neg hsq]
        rw [h3]
        simp [voteAfterNearest, hsq]
    have h5 : ∀ r,
        sget (exactPass (exactHits env cand)
          (if (sqOf env cand).isEmpty then
              nearestPass (env.spatial_nearest cand.geometry)
                (spatialPass (sqOf env cand)
                  (secondOrderVotes env (nonPlinksOf cand)
                    (firstOrderVotes env cand.cid (plinksOf cand) [])))
            else
              spatialPass (sqOf env cand)
                (secondOrderVotes env (nonPlinksOf cand)
                  (firstOrderVotes env cand.cid (plinksOf cand) [])))) r =
        voteAfterExact env cand r := by
      intro r
      unfold exactPass
      rw [sget_addTagPass]
      simp only [h4, voteAfterExact]
    simp only [matchCandidate, if_neg hskip]
    rw [sget_fuzzyPass]
    simp only [h5, voteFormula]

/-! ### Claim C1 -/

/-- C1: for every candidate that has a link resolving to gazetteer pid P
whose reverse link set, filtered to the candidate's netloc, contains the
candidate's id, `Matcher.match` records exactly the vote set
{first-order link, reciprocal link} for P, and evaluates no
second-order-link, spatial, exact-name or fuzzy-name signal for that
candidate: the result is unchanged under any environment that agrees
with the original on the two link oracles alone. -/
theorem C1_reciprocal_short_circuit {G : Type} (env : MatchEnv G)
    (cand : Candidate G) (P : String)
    (h1 : ∃ l ∈ cand.links, isPleiadesLink l = true ∧ pidOf l = P)
    (h2 : recipCond env cand.cid P) :
    sget (matchCandidate env cand) P =
      some {"first-order link", "reciprocal link"} ∧
    ∀ env' : MatchEnv G,
      env'.get_links_by_pid = env.get_links_by_pid →
      env'.netlocOf = env.netlocOf →
      matchCandidate env' cand = matchCandidate env cand := by
  obtain ⟨l, hlmem, hlp, hlpid⟩ := h1
  have hpl : l ∈ plinksOf cand := List.mem_filter.mpr ⟨hlmem, hlp⟩
  have hfo : P ∈ (plinksOf cand).map pidOf :=
    List.mem_map.mpr ⟨l, hpl, hlpid⟩
  have hskip : firstOrderSkip env cand.cid (plinksOf cand) = true :=
    (firstOrderSkip_iff env cand.cid (plinksOf cand)).mpr
      ⟨l, hpl, by rw [hlpid]; exact h2⟩
  constructor
  · rw [sget_matchCandidate, if_pos hskip]
    unfold voteAfterLinks
    rw [if_pos (show P ∈ foPids cand from hfo)]
    unfold foTagsOf
    rw [if_pos h2]
  · intro env' hl hn
    have hskip' : firstOrderSkip env' cand.cid (plinksOf cand) = true := by
      rw [firstOrderSkip_env_eq env env' hl hn]
      exact hskip
    simp only [matchCandidate]
    rw [if_pos hskip', if_pos hskip]
    exact firstOrderVotes_env_eq env env' hl hn cand.cid (plinksOf cand) []

/-- Witness for C1 at a concrete reciprocal-link instance. -/
theorem C1_witness :
    sget (matchCandidate envC1 candC1) "12345" =
      some {"first-order link", "reciprocal link"} :=
  (C1_reciprocal_short_circuit envC1 candC1 "12345"
    ⟨"https://pleiades.stoa.org/places/12345", by decide, by decide, by decide⟩
    (by decide)).1

/-! ### Claim C2 -/

theorem isEmpty_false_of_mem {α : Type} {l : List α} {a : α} (h : a ∈ l) :
    l.isEmpty = false := by
  cases l with
  | nil => cases h
  | cons b bs => rfl

/-- Which pids own a vote entry after a full (non-short-circuited)
cascade. -/
theorem voteFormula_isSome_iff {G : Type} (env : MatchEnv G)
    (cand : Candidate G) (q : String) :
    (voteFormula env cand q).isSome = true ↔
      q ∈ foPids cand ∨ q ∈ soPids env (nonPlinksOf cand) ∨
      q ∈ sqOf env cand ∨
      ((sqOf env cand).isEmpty = true ∧
        q ∈ env.spatial_nearest cand.geometry) ∨
      q ∈ exactHits env cand ∨
      (q ∈ fuzzyFinal env cand ∧ q ∈ matchedBF env cand) := by
  unfold voteFormula voteAfterExact voteAfterNearest voteAfterSpatial
    voteAfterSecond voteAfterLinks
  split_ifs <;> simp_all

theorem mem_voteFormula_of_mem_voteAfterExact {G : Type} (env : MatchEnv G)
    (cand : Candidate G) (q x : String)
    (hx : x ∈ (voteAfterExact env cand q).getD ∅) :
    x ∈ (voteFormula env cand q).getD ∅ := by
  unfold voteFormula
  split_ifs with h
  · simp only [Option.getD_some]
    exact Finset.mem_insert_of_mem hx
  · exact hx

theorem mem_voteAfterExact_of_mem_voteAfterNearest {G : Type}
    (env : MatchEnv G) (cand : Candidate G) (q x : String)
    (hx : x ∈ (voteAfterNearest env cand q).getD ∅) :
    x ∈ (voteAfterExact env cand q).getD ∅ := by
  unfold voteAfterExact
  split_ifs with h
  · simp only [Option.getD_some]
    exact Finset.mem_insert_of_mem hx
  · exact hx

theorem mem_voteAfterNearest_of_mem_voteAfterSpatial {G : Type}
    (env : MatchEnv G) (cand : Candidate G) (q x : String)
    (hx : x ∈ (voteAfterSpatial env cand q).getD ∅) :
    x ∈ (voteAfterNearest env cand q).getD ∅ := by
  unfold voteAfterNearest
  split_ifs with h
  · simp only [Option.getD_some]
    exact Finset.mem_insert_of_mem hx
  · exact hx

theorem mem_voteAfterSecond_of_mem_voteAfterLinks {G : Type}
    (env : MatchEnv G) (cand : Candidate G) (q x : String)
    (hx : x ∈ (voteAfterLinks env cand q).getD ∅) :
    x ∈ (voteAfterSecond env cand q).getD ∅ := by
  unfold voteAfterSecond
  split_ifs with h
  · simp only [Option.getD_some]
    exact Finset.mem_insert_of_mem hx
  · exact hx

/-- Tags established by the end of the spatial stage survive to the
returned vote set. -/
theorem mem_voteFormula_of_mem_voteAfterSpatial {G : Type}
    (env : MatchEnv G) (cand : Candidate G) (q x : String)
    (hx : x ∈ (voteAfterSpatial env cand q).getD ∅) :
    x ∈ (voteFormula env cand q).getD ∅ :=
  mem_voteFormula_of_mem_voteAfterExact env cand q x
    (mem_voteAfterExact_of_mem_voteAfterNearest env cand q x
      (mem_voteAfterNearest_of_mem_voteAfterSpatial env cand q x hx))

/-- A spatial-query hit's entry right after the nearest stage is exactly
the overwritten singleton {footprint}. -/
theorem voteAfterNearest_of_mem_sq {G : Type} (env : MatchEnv G)
    (cand : Candidate G) (q : String) (h : q ∈ sqOf env cand) :
    voteAfterNearest env cand q = some {"footprint"} := by
  have hne : (sqOf env cand).isEmpty = false := isEmpty_false_of_mem h
  unfold voteAfterNearest voteAfterSpatial
  rw [if_neg (by simp [hne]), if_pos h]

/-- Every pid in the matcher's running `matched` set was touched by a
link, spatial, nearest or exact-name signal. -/
theorem mem_matchedBF_cases {G : Type} (env : MatchEnv G)
    (cand : Candidate G) (q : String) (h : q ∈ matchedBF env cand) :
    q ∈ foPids cand ∨ q ∈ soPids env (nonPlinksOf cand) ∨
    q ∈ sqOf env cand ∨ q ∈ env.spatial_nearest cand.geometry ∨
    q ∈ exactHits env cand := by
  unfold matchedBF at h
  simp only [List.mem_append] at h
  rcases h with ((((h | h) | h) | h) | h)
  · exact Or.inl h
  · exact Or.inr (Or.inl h)
  · exact Or.inr (Or.inr (Or.inl h))
  · by_cases hsq : (sqOf env cand).isEmpty = true
    · rw [if_pos hsq] at h
      exact Or.inr (Or.inr (Or.inr (Or.inl h)))
    · rw [if_neg hsq] at h
      cases h
  · by_cases hsm : (smOf env cand).isEmpty = true
    · rw [if_pos hsm] at h
      exact Or.inr (Or.inr (Or.inr (Or.inr h)))
    · rw [if_neg hsm] at h
      have := (List.mem_filter.mp h).2
      exact Or.inr (Or.inr (Or.inr (Or.inr (of_decide_eq_true this))))

/-- C2 counterexample at concrete inputs: candidate `c1` has a
first-order link to pid 1 and a spatial hit on pid 1, yet pid 1's final
tag set is exactly {footprint} — the link tag is not retained; candidate
`c2`'s pid 2 is touched only by the fuzzy-name signal and has no entry
at all in the returned vote set. -/
theorem C2_counterexample :
    sget (matchCandidate envC2 candC2a) "1" = some {"footprint"} ∧
    "first-order link" ∉ (sget (matchCandidate envC2 candC2a) "1").getD ∅ ∧
    sget (matchCandidate envC2 candC2b) "2" = none := by
  decide

/-- C2 (amended): for every candidate not short-circuited by a
reciprocal link, the returned vote set has an entry for every pid
touched by the first-order-link, second-order-link, footprint, nearest
or exact-name signal, and each such pid's tag set contains the tag of
every one of those signals that touched it, with one exception: a pid
in the footprint hit set has its tag set reset to {`footprint`} by the
spatial overwrite, so no link tag survives on it — link tags are
retained exactly on the link-hit pids outside the footprint hit set.
Fuzzy-name hits that survive the spatial intersection and were already
recorded in `matched` receive the `fuzzy name` tag, and every pid with
an entry was touched by a link, spatial, nearest or exact-name signal —
in particular a pid touched only by the fuzzy-name signal has no
entry. -/
theorem C2_vote_coverage_amended {G : Type} (env : MatchEnv G)
    (cand : Candidate G)
    (hns : firstOrderSkip env cand.cid (plinksOf cand) = false) :
    (∀ q ∈ foPids cand, (sget (matchCandidate env cand) q).isSome = true) ∧
    (∀ q ∈ soPids env (nonPlinksOf cand),
      (sget (matchCandidate env cand) q).isSome = true) ∧
    (∀ q ∈ sqOf env cand,
      "footprint" ∈ (sget (matchCandidate env cand) q).getD ∅ ∧
      "first-order link" ∉ (sget (matchCandidate env cand) q).getD ∅ ∧
      "second-order link" ∉ (sget (matchCandidate env cand) q).getD ∅ ∧
      "reciprocal link" ∉ (sget (matchCandidate env cand) q).getD ∅) ∧
    ((sqOf env cand).isEmpty = true →
      ∀ q ∈ env.spatial_nearest cand.geometry,
        "nearest" ∈ (sget (matchCandidate env cand) q).getD ∅) ∧
    (∀ q ∈ exactHits env cand,
      "exact name" ∈ (sget (matchCandidate env cand) q).getD ∅) ∧
    (∀ q ∈ foPids cand, q ∉ sqOf env cand →
      "first-order link" ∈ (sget (matchCandidate env cand) q).getD ∅) ∧
    (∀ q ∈ soPids env (nonPlinksOf cand), q ∉ sqOf env cand →
      "second-order link" ∈ (sget (matchCandidate env cand) q).getD ∅) ∧
    (∀ q ∈ fuzzyFinal env cand, q ∈ matchedBF env cand →
      "fuzzy name" ∈ (sget (matchCandidate env cand) q).getD ∅) ∧
    (∀ q, (sget (matchCandidate env cand) q).isSome = true →
      q ∈ foPids cand ∨ q ∈ soPids env (nonPlinksOf cand) ∨
      q ∈ sqOf env cand ∨ q ∈ env.spatial_nearest cand.geometry ∨
      q ∈ exactHits env cand) := by
  have hm : ∀ q, sget (matchCandidate env cand) q = voteFormula env cand q := by
    intro q
    rw [sget_matchCandidate, if_neg (by simp [hns])]
  refine ⟨?_, ?_, ?_, ?_, ?_, ?_, ?_, ?_, ?_⟩
  · intro q hq
    rw [hm]
    exact (voteFormula_isSome_iff env cand q).mpr (Or.inl hq)
  · intro q hq
    rw [hm]
    exact (voteFormula_isSome_iff env cand q).mpr (Or.inr (Or.inl hq))
  · intro q hq
    have h4 := voteAfterNearest_of_mem_sq env cand q hq
    rw [hm]
    unfold voteFormula voteAfterExact
    rw [h4]
    split_ifs <;> refine ⟨by decide, by decide, by decide, by decide⟩
  · intro hsq q hq
    rw [hm]
    have hva : voteAfterNearest env cand q =
        some (insert "nearest" ((voteAfterSpatial env cand q).getD ∅)) := by
      unfold voteAfterNearest
      rw [if_pos ⟨hsq, hq⟩]
    have hmem : "nearest" ∈ (voteAfterNearest env cand q).getD ∅ := by
      rw [hva]
      simp only [Option.getD_some]
      exact Finset.mem_insert_self _ _
    exact mem_voteFormula_of_mem_voteAfterExact env cand q _
      (mem_voteAfterExact_of_mem_voteAfterNearest env cand q _ hmem)
  · intro q hq
    rw [hm]
    have hmem : "exact name" ∈ (voteAfterExact env cand q).getD ∅ := by
      unfold voteAfterExact
      rw [if_pos hq]
      simp only [Option.getD_some]
      exact Finset.mem_insert_self _ _
    exact mem_voteFormula_of_mem_voteAfterExact env cand q _ hmem
  · intro q hq hnsq
    rw [hm]
    have h1 : "first-order link" ∈ (voteAfterLinks env cand q).getD ∅ := by
      unfold voteAfterLinks
      rw [if_pos hq]
      simp only [Option.getD_some]
      exact Finset.mem_insert_self _ _
    have h3 : "first-order link" ∈ (voteAfterSpatial env cand q).getD ∅ := by
      unfold voteAfterSpatial
      rw [if_neg hnsq]
      exact mem_voteAfterSecond_of_mem_voteAfterLinks env cand q _ h1
    exact mem_voteFormula_of_mem_voteAfterSpatial env cand q _ h3
  · intro q hq hnsq
    rw [hm]
    have h2 : "second-order link" ∈ (voteAfterSecond env cand q).getD ∅ := by
      unfold voteAfterSecond
      rw [if_pos hq]
      simp only [Option.getD_some]
      exact Finset.mem_insert_self _ _
    have h3 : "second-order link" ∈ (voteAfterSpatial env cand q).getD ∅ := by
      unfold voteAfterSpatial
      rw [if_neg hnsq]
      exact h2
    exact mem_voteFormula_of_mem_voteAfterSpatial env cand q _ h3
  · intro q hq1 hq2
    rw [hm]
    unfold voteFormula
    rw [if_pos ⟨hq1, hq2⟩]
    simp only [Option.getD_some]
    exact Finset.mem_insert_self _ _
  · intro q hq
    rw [hm] at hq
    rcases (voteFormula_isSome_iff env cand q).mp hq with
      h | h | h | ⟨_, h⟩ | h | ⟨_, h⟩
    · exact Or.inl h
    · exact Or.inr (Or.inl h)
    · exact Or.inr (Or.inr (Or.inl h))
    · exact Or.inr (Or.inr (Or.inr (Or.inl h)))
    · exact Or.inr (Or.inr (Or.inr (Or.inr h)))
    · exact mem_matchedBF_cases env cand q h

/-- Witness for the amended C2 at concrete non-short-circuited
candidates: a footprint hit carries its tag, and a surviving fuzzy hit
receives the `fuzzy name` tag. -/
theorem C2_witness :
    "footprint" ∈ (sget (matchCandidate envC2 candC2a) "1").getD ∅ ∧
    "fuzzy name" ∈ (sget (matchCandidate envC4 candC4) "5").getD ∅ :=
  ⟨((C2_vote_coverage_amended envC2 candC2a (by decide)).2.2.1 "1"
      (by decide)).1,
    (C2_vote_coverage_amended envC4 candC4 (by decide)).2.2.2.2.2.2.2.1 "5"
      (by decide) (by decide)⟩

/-! ### Claim C4 -/

/-- No pass before the fuzzy one ever writes the `fuzzy name` tag. -/
theorem fuzzy_notMem_voteAfterExact {G : Type} (env : MatchEnv G)
    (cand : Candidate G) (q : String) :
    "fuzzy name" ∉ (voteAfterExact env cand q).getD ∅ := by
  unfold voteAfterExact voteAfterNearest voteAfterSpatial voteAfterSecond
    voteAfterLinks foTagsOf
  split_ifs <;> decide

/-- C4: for every candidate whose spatial-hit set (the spatial-query
hits, or the nearest fallback when the query was empty) is non-empty,
every pid tagged `fuzzy name` in the returned vote set lies in that
spatial-hit set. -/
theorem C4_fuzzy_tags_subset_spatial {G : Type} (env : MatchEnv G)
    (cand : Candidate G) (q : String)
    (hsm : smOf env cand ≠ [])
    (hf : "fuzzy name" ∈ (sget (matchCandidate env cand) q).getD ∅) :
    q ∈ smOf env cand := by
  rw [sget_matchCandidate] at hf
  by_cases hskip : firstOrderSkip env cand.cid (plinksOf cand) = true
  · rw [if_pos hskip] at hf
    unfold voteAfterLinks foTagsOf at hf
    exfalso
    by_cases hfo : q ∈ foPids cand
    · rw [if_pos hfo] at hf
      by_cases hrec : recipCond env cand.cid q
      · rw [if_pos hrec] at hf
        simp only [Option.getD_some] at hf
        exact absurd hf (by decide)
      · rw [if_neg hrec] at hf
        simp only [Option.getD_some] at hf
        exact absurd hf (by decide)
    · rw [if_neg hfo] at hf
      simp at hf
  · rw [if_neg hskip] at hf
    unfold voteFormula at hf
    by_cases hfz : q ∈ fuzzyFinal env cand ∧ q ∈ matchedBF env cand
    · have hq := hfz.1
      unfold fuzzyFinal at hq
      by_cases hfp : (fuzzyPids env cand).isEmpty = true
      · rw [if_pos hfp] at hq
        cases hq
      · rw [if_neg hfp] at hq
        have hsmE : (smOf env cand).isEmpty = false := by
          cases hsml : smOf env cand with
          | nil => exact absurd hsml hsm
          | cons a l => rfl
        rw [if_neg (by simp [hsmE])] at hq
        exact (List.mem_filter.mp hq).1
    · rw [if_neg hfz] at hf
      exact absurd hf (fuzzy_notMem_voteAfterExact env cand q)

/-- Witness for C4 at a concrete candidate with a spatial hit and a
fuzzy hit on the same pid. -/
theorem C4_witness : "5" ∈ smOf envC4 candC4 :=
  C4_fuzzy_tags_subset_spatial envC4 candC4 "5" (by decide) (by decide)

/-! ### Claim C10 -/

/-- Adding a vocabulary tag on top of a sound optional tag set stays
sound. -/
theorem sound_step (o : Option Tags) (t : String) (ht : t ∈ tagVocabulary)
    (ho : ∀ ts : Tags, o = some ts → ts.Nonempty ∧ ts ⊆ tagVocabulary) :
    ∀ ts : Tags, some (insert t (o.getD ∅)) = some ts →
      ts.Nonempty ∧ ts ⊆ tagVocabulary := by
  intro ts h
  obtain rfl := Option.some_inj.mp h
  refine ⟨⟨t, Finset.mem_insert_self t _⟩, ?_⟩
  intro x hx
  rcases Finset.mem_insert.mp hx with rfl | hx
  · exact ht
  · cases ho' : o with
    | none =>
      rw [ho'] at hx
      cases hx
    | some s =>
      rw [ho'] at hx
      simp only [Option.getD_some] at hx
      exact (ho s ho').2 hx

/-- Entries written by the link loop are non-empty vocabulary sets. -/
theorem voteAfterLinks_sound {G : Type} (env : MatchEnv G)
    (cand : Candidate G) (q : String) :
    ∀ ts : Tags, voteAfterLinks env cand q = some ts →
      ts.Nonempty ∧ ts ⊆ tagVocabulary := by
  intro ts h
  unfold voteAfterLinks at h
  split_ifs at h with hc
  · obtain rfl := Option.some_inj.mp h
    unfold foTagsOf
    by_cases hrec : recipCond env cand.cid q
    · rw [if_pos hrec]
      decide
    · rw [if_neg hrec]
      decide

theorem voteAfterSecond_sound {G : Type} (env : MatchEnv G)
    (cand : Candidate G) (q : String) :
    ∀ ts : Tags, voteAfterSecond env cand q = some ts →
      ts.Nonempty ∧ ts ⊆ tagVocabulary := by
  intro ts h
  unfold voteAfterSecond at h
  split_ifs at h with hc
  · exact sound_step _ _ (by decide) (voteAfterLinks_sound env cand q) ts h
  · exact voteAfterLinks_sound env cand q ts h

theorem voteAfterSpatial_sound {G : Type} (env : MatchEnv G)
    (cand : Candidate G) (q : String) :
    ∀ ts : Tags, voteAfterSpatial env cand q = some ts →
      ts.Nonempty ∧ ts ⊆ tagVocabulary := by
  intro ts h
  unfold voteAfterSpatial at h
  split_ifs at h with hc
  · obtain rfl := Option.some_inj.mp h
    decide
  · exact voteAfterSecond_sound env cand q ts h

theorem voteAfterNearest_sound {G : Type} (env : MatchEnv G)
    (cand : Candidate G) (q : String) :
    ∀ ts : Tags, voteAfterNearest env cand q = some ts →
      ts.Nonempty ∧ ts ⊆ tagVocabulary := by
  intro ts h
  unfold voteAfterNearest at h
  split_ifs at h with hc
  · exact sound_step _ _ (by decide) (voteAfterSpatial_sound env cand q) ts h
  · exact voteAfterSpatial_sound env cand q ts h

theorem voteAfterExact_sound {G : Type} (env : MatchEnv G)
    (cand : Candidate G) (q : String) :
    ∀ ts : Tags, voteAfterExact env cand q = some ts →
      ts.Nonempty ∧ ts ⊆ tagVocabulary := by
  intro ts h
  unfold voteAfterExact at h
  split_ifs at h with hc
  · exact sound_step _ _ (by decide) (voteAfterNearest_sound env cand q) ts h
  · exact voteAfterNearest_sound env cand q ts h

theorem voteFormula_sound {G : Type} (env : MatchEnv G)
    (cand : Candidate G) (q : String) :
    ∀ ts : Tags, voteFormula env cand q = some ts →
      ts.Nonempty ∧ ts ⊆ tagVocabulary := by
  intro ts h
  unfold voteFormula at h
  split_ifs at h with hc
  · exact sound_step _ _ (by decide) (voteAfterExact_sound env cand q) ts h
  · exact voteAfterExact_sound env cand q ts h

/-- C10: in every vote-set mapping returned by `Matcher.match`, every
pid present maps to a non-empty tag set drawn from the fixed vocabulary
{footprint, nearest, exact name, fuzzy name, first-order link,
second-order link, reciprocal link}. -/
theorem C10_vote_tags_vocabulary {G : Type} (env : MatchEnv G)
    (cands : List (Candidate G)) (cid : String) (votes : Votes)
    (hmem : (cid, votes) ∈ matchAll env cands) (q : String)
    (hq : (sget votes q).isSome = true) :
    ((sget votes q).getD ∅).Nonempty ∧
    (sget votes q).getD ∅ ⊆ tagVocabulary := by
  unfold matchAll at hmem
  obtain ⟨c, hc, hpair⟩ := List.mem_map.mp hmem
  have hv : votes = matchCandidate env c := (Prod.ext_iff.mp hpair).2.symm
  subst hv
  obtain ⟨ts, hts⟩ := Option.isSome_iff_exists.mp hq
  rw [hts, Option.getD_some]
  rw [sget_matchCandidate] at hts
  by_cases hskip : firstOrderSkip env c.cid (plinksOf c) = true
  · rw [if_pos hskip] at hts
    exact voteAfterLinks_sound env c q ts hts
  · rw [if_neg hskip] at hts
    exact voteFormula_sound env c q ts hts

/-- Witness for C10 at a concrete vote set. -/
theorem C10_witness :
    ((sget (matchCandidate envC4 candC4) "5").getD ∅).Nonempty ∧
    (sget (matchCandidate envC4 candC4) "5").getD ∅ ⊆ tagVocabulary :=
  C10_vote_tags_vocabulary envC4 [candC4] "c4" (matchCandidate envC4 candC4)
    (List.mem_singleton.mpr rfl) "5" (by decide)

/-! ### Claim C3 -/

/-- The first-subset-index characterization of `weight`. -/
theorem weight_spec (m : MatchRecord) (ws : List (Finset String)) :
    weight m ws ≤ ws.length ∧
    (∀ j : Nat, j < weight m ws →
      ¬ ws.getD j ∅ ⊆ m.match_types.toFinset) ∧
    (weight m ws < ws.length →
      ws.getD (weight m ws) ∅ ⊆ m.match_types.toFinset) ∧
    ((∀ s ∈ ws, ¬ s ⊆ m.match_types.toFinset) → weight m ws = ws.length) := by
  induction ws with
  | nil => simp [weight]
  | cons w rest ih =>
    obtain ⟨ih1, ih2, ih3, ih4⟩ := ih
    by_cases hw : w ⊆ m.match_types.toFinset
    · refine ⟨?_, ?_, ?_, ?_⟩
      · simp [weight, hw]
      · intro j hlt
        rw [weight, if_pos hw] at hlt
        exact absurd hlt (Nat.not_lt_zero j)
      · intro hwlen
        simp [weight, hw]
      · intro hall
        exact absurd hw (hall w (List.mem_cons_self w rest))
    · have hwe : weight m (w :: rest) = weight m rest + 1 := by
        simp [weight, hw]
      refine ⟨?_, ?_, ?_, ?_⟩
      · rw [hwe]
        simpa using Nat.succ_le_succ ih1
      · intro j hlt
        rw [hwe] at hlt
        cases j with
        | zero => simpa using hw
        | succ j' =>
          have hlt' : j' < weight m rest := Nat.lt_of_succ_lt_succ hlt
          simpa using ih2 j' hlt'
      · intro hwlen
        rw [hwe] at hwlen ⊢
        rw [List.length_cons] at hwlen
        have hwl : weight m rest < rest.length := Nat.lt_of_succ_lt_succ hwlen
        simpa using ih3 hwl
      · intro hall
        rw [hwe, ih4 (fun s hs => hall s (List.mem_cons_of_mem w hs))]
        simp

/-- C3: `weight` (the rank function) returns the index of the first
weight-table entry whose tag set is a subset of the vote tags, and the
table length when no entry is; with the example table
[{reciprocal link}, {footprint, exact name}, {footprint}], the vote sets
{footprint, exact name, nearest}, {footprint} and {nearest} rank 1, 2
and 3. -/
theorem C3_rank_first_subset_index :
    (∀ (m : MatchRecord) (ws : List (Finset String)),
      weight m ws ≤ ws.length ∧
      (∀ j : Nat, j < weight m ws →
        ¬ ws.getD j ∅ ⊆ m.match_types.toFinset) ∧
      (weight m ws < ws.length →
        ws.getD (weight m ws) ∅ ⊆ m.match_types.toFinset) ∧
      ((∀ s ∈ ws, ¬ s ⊆ m.match_types.toFinset) →
        weight m ws = ws.length)) ∧
    weight ⟨["footprint", "exact name", "nearest"]⟩
      [{"reciprocal link"}, {"footprint", "exact name"}, {"footprint"}] = 1 ∧
    weight ⟨["footprint"]⟩
      [{"reciprocal link"}, {"footprint", "exact name"}, {"footprint"}] = 2 ∧
    weight ⟨["nearest"]⟩
      [{"reciprocal link"}, {"footprint", "exact name"}, {"footprint"}] = 3 :=
  ⟨weight_spec, by decide, by decide, by decide⟩

/-- Witness for C3 at the spec's example table. -/
theorem C3_witness :
    weight ⟨["footprint", "exact name", "nearest"]⟩
      [{"reciprocal link"}, {"footprint", "exact name"}, {"footprint"}] = 1 :=
  C3_rank_first_subset_index.2.1

/-! ### Claim C5 -/

/-- C5 evaluation at the failing input: a dataset whose features carry
the duplicate id `a` loads without any error — the duplicate check reads
the always-empty `self.features`, so the second feature silently
overwrites the first in the local `candidates` dict — and, in general, a
fresh `_load_candidates` never raises at all. -/
theorem C5_duplicate_ids_accepted :
    loadCandidates [⟨"a", 1⟩, ⟨"a", 2⟩] =
      Except.ok [("a", (⟨"a", 2⟩ : RawCandidate))] ∧
    ∀ feats : List RawCandidate, ∃ m, loadCandidates feats = Except.ok m := by
  constructor
  · rfl
  · intro feats
    suffices h : ∀ acc, ∃ m, loadFeaturesLoop [] feats acc = Except.ok m from
      h []
    induction feats with
    | nil => intro acc; exact ⟨acc, rfl⟩
    | cons f rest ih =>
      intro acc
      simpa [loadFeaturesLoop, cget] using ih (cset acc f.id f)

/-! ### Claim C6 -/

/-- C6 evaluation at the failing input: for the title `Foo/(Bar)` the
code keeps the parenthesis-wrapped alternate form `(Bar)` among the
name strings, because pleiades.py line 74 tests `startswith("()")`
instead of `startswith("(")`; the segment does begin with `(` and end
with `)`, so the claim says it must be excluded. -/
theorem C6_paren_segment_not_excluded :
    titleNameStrings "Foo/(Bar)" = ["Foo", "(Bar)"] ∧
    nameStrings ⟨"42", "Foo/(Bar)", [], [], [], []⟩ = ["Foo", "(Bar)"] ∧
    strStarts "(Bar)" "(" = true ∧ strEnds "(Bar)" ")" = true :=
  ⟨rfl, rfl, rfl, rfl⟩

/-! ### Claim C7 -/

/-- Every box of a geometry is covered by the geometry's extent. -/
theorem extent_covers (g : Geom) (b : Box) (hb : b ∈ g) :
    ∃ e, extent g = some e ∧ boxCovers e b := by
  induction g with
  | nil => cases hb
  | cons hd tl ih =>
    rcases List.mem_cons.mp hb with rfl | hb
    · cases he : extent tl with
      | none =>
        exact ⟨b, by simp [extent, he], le_refl _, le_refl _, le_refl _,
          le_refl _⟩
      | some e =>
        refine ⟨mergeBox b e, by simp [extent, he], ?_, ?_, ?_, ?_⟩ <;>
          simp [mergeBox]
    · obtain ⟨e, he, hc⟩ := ih hb
      obtain ⟨h1, h2, h3, h4⟩ := hc
      refine ⟨mergeBox hd e, by simp [extent, he], ?_, ?_, ?_, ?_⟩ <;>
        simp [mergeBox]
      · exact Or.inr h1
      · exact Or.inr h2
      · exact Or.inr h3
      · exact Or.inr h4

/-- Interval overlap is monotone under covering boxes. -/
theorem boxesOverlap_mono (e1 e2 b1 b2 : Box) (hc1 : boxCovers e1 b1)
    (hc2 : boxCovers e2 b2) (h : boxesOverlap b1 b2 = true) :
    boxesOverlap e1 e2 = true := by
  obtain ⟨c1, c2, c3, c4⟩ := hc1
  obtain ⟨d1, d2, d3, d4⟩ := hc2
  simp only [boxesOverlap, Bool.and_eq_true, decide_eq_true_eq] at h ⊢
  obtain ⟨⟨⟨o1, o2⟩, o3⟩, o4⟩ := h
  refine ⟨⟨⟨?_, ?_⟩, ?_⟩, ?_⟩ <;> linarith

/-- A true geometric intersection implies an extent intersection: the
predicate-free `STRtree.query` result is a superset of the truly
intersecting footprints. -/
theorem extentIntersects_of_geomIntersects (a b : Geom)
    (h : geomIntersects a b = true) : extentIntersects a b = true := by
  simp only [geomIntersects, List.any_eq_true] at h
  obtain ⟨ba, hba, bb, hbb, hov⟩ := h
  obtain ⟨ea, hea, hca⟩ := extent_covers a ba hba
  obtain ⟨eb, heb, hcb⟩ := extent_covers b bb hbb
  unfold extentIntersects
  rw [hea, heb]
  exact boxesOverlap_mono ea eb ba bb hca hcb hov

/-- A geometry holding a valid box extent-intersects itself. -/
theorem extentIntersects_self (g : Geom) (b : Box) (hb : b ∈ g)
    (hv : b.valid) : extentIntersects g g = true := by
  obtain ⟨e, he, hc⟩ := extent_covers g b hb
  obtain ⟨h1, h2, h3, h4⟩ := hc
  obtain ⟨v1, v2⟩ := hv
  unfold extentIntersects
  rw [he]
  simp only [boxesOverlap, Bool.and_eq_true, decide_eq_true_eq]
  refine ⟨⟨⟨?_, ?_⟩, ?_⟩, ?_⟩ <;> linarith

/-- Membership in `spatial_query` is exactly extent intersection of an
indexed footprint with the query geometry. -/
theorem mem_spatial_query (idx : List (String × Geom)) (g : Geom)
    (q : String) :
    q ∈ spatial_query idx g ↔
      ∃ fg, (q, fg) ∈ idx ∧ extentIntersects fg g = true := by
  simp only [spatial_query, List.mem_map, List.mem_filter]
  constructor
  · rintro ⟨⟨p, fg⟩, ⟨hmem, hpred⟩, rfl⟩
    exact ⟨fg, hmem, hpred⟩
  · rintro ⟨fg, hmem, hpred⟩
    exact ⟨(q, fg), ⟨hmem, hpred⟩, rfl⟩

/-- C7 counterexample at a concrete index: for the non-convex footprint
`geomL` and the query point `geomPt`, `spatial_query` returns pid P1
even though the footprint does not intersect the query geometry — the
claim's "exactly the pids whose footprint intersects g" fails, because
`STRtree.query` with no predicate compares extents only. -/
theorem C7_counterexample :
    spatial_query [("P1", geomL)] geomPt = ["P1"] ∧
    geomIntersects geomL geomPt = false := by
  decide

/-- C7 (amended): `spatial_query(g)` returns exactly the pids whose
indexed footprint's extent intersects the extent of `g` — a superset of
the pids whose footprint truly intersects `g` — and querying with a
pid's own (non-degenerate) footprint returns at least that pid. -/
theorem C7_spatial_query_extent (idx : List (String × Geom)) (g : Geom)
    (q : String) :
    (q ∈ spatial_query idx g ↔
      ∃ fg, (q, fg) ∈ idx ∧ extentIntersects fg g = true) ∧
    (∀ fg, (q, fg) ∈ idx → geomIntersects fg g = true →
      q ∈ spatial_query idx g) ∧
    (∀ fg, (q, fg) ∈ idx → (∃ b ∈ fg, b.valid) →
      q ∈ spatial_query idx fg) := by
  refine ⟨mem_spatial_query idx g q, ?_, ?_⟩
  · intro fg hmem hint
    exact (mem_spatial_query idx g q).mpr
      ⟨fg, hmem, extentIntersects_of_geomIntersects fg g hint⟩
  · intro fg hmem hval
    obtain ⟨b, hb, hv⟩ := hval
    exact (mem_spatial_query idx fg q).mpr
      ⟨fg, hmem, extentIntersects_self fg b hb hv⟩

/-- Witness for the amended C7: reflexivity at the concrete index. -/
theorem C7_witness : "P1" ∈ spatial_query [("P1", geomL)] geomL :=
  (C7_spatial_query_extent [("P1", geomL)] geomL "P1").2.2 geomL
    (by decide) ⟨⟨0, 3, 0, 1⟩, by decide, by norm_num, by norm_num⟩

/-! ### Claim C8 -/

/-- The buffering loop raises as soon as some precise location with a
non-null geometry has a null `accuracy_value`. -/
theorem bufferedGeoms_error_of (m2d : ℚ → ℚ → ℚ) (pid : String)
    (l : List (RawLocation × String))
    (h : ∃ lp ∈ l, lp.1.geometry.isSome = true ∧ lp.1.accuracy_value = none) :
    ∃ e, bufferedGeoms m2d pid l = Except.error e := by
  induction l with
  | nil =>
    obtain ⟨lp, hm, _⟩ := h
    cases hm
  | cons hd tl ih =>
    obtain ⟨lp, hm, hg, ha⟩ := h
    rcases List.mem_cons.mp hm with rfl | hm
    · cases hgeo : lp.1.geometry with
      | none => rw [hgeo] at hg; cases hg
      | some g =>
        simp only [bufferedGeoms, hgeo, ha]
        exact ⟨_, rfl⟩
    · obtain ⟨e, he⟩ := ih ⟨lp, hm, hg, ha⟩
      cases hgeo : hd.1.geometry with
      | none =>
        simp only [bufferedGeoms, hgeo]
        exact ⟨e, he⟩
      | some g =>
        cases hacc : hd.1.accuracy_value with
        | none =>
          simp only [bufferedGeoms, hgeo, hacc]
          exact ⟨_, rfl⟩
        | some acc =>
          simp only [bufferedGeoms, hgeo, hacc]
          rw [he]
          exact ⟨e, rfl⟩

/-- C8: for every place having a location whose geometry is flagged
precise but whose accuracy value is null, computing the footprint raises
an error; no default is substituted. -/
theorem C8_missing_accuracy_fatal (m2d : ℚ → ℚ → ℚ) (p : RawPlace)
    (h : ∃ lp ∈ preciseLocs p, lp.1.accuracy_value = none) :
    ∃ e, footprint m2d p = Except.error e := by
  obtain ⟨lp, hm, ha⟩ := h
  have hpred := (List.mem_filter.mp hm).2
  simp only [Bool.and_eq_true] at hpred
  obtain ⟨e, he⟩ := bufferedGeoms_error_of m2d p.pid (preciseLocs p)
    ⟨lp, hm, hpred.1, ha⟩
  refine ⟨e, ?_⟩
  unfold footprint
  rw [he]

/-- Witness for C8: the concrete place `placeC8` has a precise location
with a null accuracy value, and its footprint computation errors. -/
theorem C8_witness :
    ∃ e, footprint (fun _ _ => 0) placeC8 = Except.error e :=
  C8_missing_accuracy_fatal (fun _ _ => 0) placeC8
    ⟨(⟨"loc1", some [⟨0, 0, 0, 0⟩], none, "related"⟩, "precise"),
      by decide, by decide⟩

/-! ### Claim C9 -/

theorem footprint_none_of_no_precise (m2d : ℚ → ℚ → ℚ) (p : RawPlace)
    (h : preciseLocs p = []) : footprint m2d p = Except.ok none := by
  unfold footprint
  rw [h]
  rfl

/-- Membership in a value-set only grows under `sadd`. -/
theorem sget_sadd_mono (m : SMap) (k v q x : String)
    (hx : x ∈ (sget m q).getD ∅) : x ∈ (sget (sadd m k v) q).getD ∅ := by
  rw [sget_sadd]
  by_cases h : q = k
  · rw [if_pos h, Option.getD_some]
    exact Finset.mem_insert_of_mem hx
  · rw [if_neg h]
    exact hx

theorem addNamesFor_mono (pid : String) (ns : List String) :
    ∀ (idx : SMap) (k x : String), x ∈ (sget idx k).getD ∅ →
      x ∈ (sget (addNamesFor pid ns idx) k).getD ∅ := by
  induction ns with
  | nil => intro idx k x hx; exact hx
  | cons n rest ih =>
    intro idx k x hx
    exact ih _ k x (sget_sadd_mono idx n pid k x hx)

theorem mem_addNamesFor (pid : String) (ns : List String) :
    ∀ idx : SMap, ∀ n ∈ ns, pid ∈ (sget (addNamesFor pid ns idx) n).getD ∅ := by
  induction ns with
  | nil => intro idx n hn; cases hn
  | cons m rest ih =>
    intro idx n hn
    rcases List.mem_cons.mp hn with rfl | hn
    · exact addNamesFor_mono pid rest _ n pid (by rw [sget_sadd]; simp)
    · exact ih (sadd idx m pid) n hn

theorem buildNamesIndex_mono (places : List RawPlace) :
    ∀ (idx : SMap) (k x : String), x ∈ (sget idx k).getD ∅ →
      x ∈ (sget (buildNamesIndex places idx) k).getD ∅ := by
  induction places with
  | nil => intro idx k x hx; exact hx
  | cons p rest ih =>
    intro idx k x hx
    exact ih _ k x (addNamesFor_mono p.pid (nameStrings p) idx k x hx)

theorem mem_buildNamesIndex (places : List RawPlace) :
    ∀ idx : SMap, ∀ p ∈ places, ∀ n ∈ nameStrings p,
      p.pid ∈ (sget (buildNamesIndex places idx) n).getD ∅ := by
  induction places with
  | nil => intro idx p hp; cases hp
  | cons hd rest ih =>
    intro idx p hp n hn
    rcases List.mem_cons.mp hp with rfl | hp
    · exact buildNamesIndex_mono rest _ n p.pid
        (mem_addNamesFor p.pid (nameStrings p) idx n hn)
    · exact ih _ p hp n hn

theorem addFwdFor_mono (pid : String) (us : List String) :
    ∀ (idx : SMap) (k x : String), x ∈ (sget idx k).getD ∅ →
      x ∈ (sget (addFwdFor pid us idx) k).getD ∅ := by
  induction us with
  | nil => intro idx k x hx; exact hx
  | cons u rest ih =>
    intro idx k x hx
    exact ih _ k x (sget_sadd_mono idx u pid k x hx)

theorem mem_addFwdFor (pid : String) (us : List String) :
    ∀ idx : SMap, ∀ u ∈ us, pid ∈ (sget (addFwdFor pid us idx) u).getD ∅ := by
  induction us with
  | nil => intro idx u hu; cases hu
  | cons v rest ih =>
    intro idx u hu
    rcases List.mem_cons.mp hu with rfl | hu
    · exact addFwdFor_mono pid rest _ u pid (by rw [sget_sadd]; simp)
    · exact ih (sadd idx v pid) u hu

theorem buildLinksIndex_mono (places : List RawPlace) :
    ∀ (idx : SMap) (k x : String), x ∈ (sget idx k).getD ∅ →
      x ∈ (sget (buildLinksIndex places idx) k).getD ∅ := by
  induction places with
  | nil => intro idx k x hx; exact hx
  | cons p rest ih =>
    intro idx k x hx
    exact ih _ k x (addFwdFor_mono p.pid (cleanRefs p) idx k x hx)

theorem mem_buildLinksIndex (places : List RawPlace) :
    ∀ idx : SMap, ∀ p ∈ places, ∀ u ∈ cleanRefs p,
      p.pid ∈ (sget (buildLinksIndex places idx) u).getD ∅ := by
  induction places with
  | nil => intro idx p hp; cases hp
  | cons hd rest ih =>
    intro idx p hp u hu
    rcases List.mem_cons.mp hp with rfl | hp
    · exact buildLinksIndex_mono rest _ u p.pid
        (mem_addFwdFor p.pid (cleanRefs p) idx u hu)
    · exact ih _ p hp u hu

theorem addRevFor_mono (pid : String) (us : List String) :
    ∀ (idx : SMap) (k x : String), x ∈ (sget idx k).getD ∅ →
      x ∈ (sget (addRevFor pid us idx) k).getD ∅ := by
  induction us with
  | nil => intro idx k x hx; exact hx
  | cons u rest ih =>
    intro idx k x hx
    exact ih _ k x (sget_sadd_mono idx pid u k x hx)

theorem addRevFor_other (pid : String) (us : List String) :
    ∀ idx : SMap, ∀ q, q ≠ pid →
      sget (addRevFor pid us idx) q = sget idx q := by
  induction us with
  | nil => intro idx q hq; rfl
  | cons u rest ih =>
    intro idx q hq
    simp only [addRevFor]
    rw [ih _ q hq, sget_sadd, if_neg hq]

theorem mem_addRevFor_self (pid : String) (us : List String) :
    ∀ idx : SMap, ∀ u ∈ us, u ∈ (sget (addRevFor pid us idx) pid).getD ∅ := by
  induction us with
  | nil => intro idx u hu; cases hu
  | cons v rest ih =>
    intro idx u hu
    rcases List.mem_cons.mp hu with rfl | hu
    · exact addRevFor_mono pid rest _ pid u (by rw [sget_sadd]; simp)
    · exact ih (sadd idx pid v) u hu

theorem buildLinksByPid_other (places : List RawPlace) :
    ∀ idx : SMap, ∀ q, q ∉ places.map RawPlace.pid →
      sget (buildLinksByPid places idx) q = sget idx q := by
  induction places with
  | nil => intro idx q hq; rfl
  | cons p rest ih =>
    intro idx q hq
    simp only [List.map_cons, List.mem_cons] at hq
    push_neg at hq
    simp only [buildLinksByPid]
    rw [ih _ q hq.2, addRevFor_other p.pid (cleanRefs p) _ q hq.1,
      sget_sset, if_neg hq.1]

theorem mem_buildLinksByPid (places : List RawPlace) :
    ∀ idx : SMap, (places.map RawPlace.pid).Nodup →
      ∀ p ∈ places, ∀ u ∈ cleanRefs p,
        u ∈ (sget (buildLinksByPid places idx) p.pid).getD ∅ := by
  induction places with
  | nil => intro idx _ p hp; cases hp
  | cons hd rest ih =>
    intro idx hnd p hp u hu
    simp only [List.map_cons, List.nodup_cons] at hnd
    rcases List.mem_cons.mp hp with rfl | hp
    · simp only [buildLinksByPid]
      rw [buildLinksByPid_other rest _ p.pid hnd.1]
      exact mem_addRevFor_self p.pid (cleanRefs p) _ u hu
    · exact ih _ hnd.2 p hp u hu

theorem get_links_by_pid_empty_target (nlo : String → String) (idx : SMap)
    (pid : String) :
    get_links_by_pid nlo idx pid "" = (sget idx pid).getD ∅ := by
  unfold get_links_by_pid
  cases sget idx pid <;> simp

theorem buildSpatial_pids (m2d : ℚ → ℚ → ℚ) (places : List RawPlace) :
    ∀ idx, buildSpatial m2d places = Except.ok idx →
      ∀ q ∈ idx.map Prod.fst, ∃ pl ∈ places, pl.pid = q ∧
        ∃ g, footprint m2d pl = Except.ok (some g) ∧ g.isEmpty = false := by
  induction places with
  | nil =>
    intro idx h q hq
    simp only [buildSpatial] at h
    obtain rfl := (Except.ok.injEq _ _).mp h
    cases hq
  | cons p rest ih =>
    intro idx h q hq
    cases hfp : footprint m2d p with
    | error e =>
      simp only [buildSpatial, hfp] at h
      exact Except.noConfusion h
    | ok og =>
      cases og with
      | none =>
        simp only [buildSpatial, hfp] at h
        obtain ⟨pl, hpl, hrest⟩ := ih idx h q hq
        exact ⟨pl, List.mem_cons_of_mem p hpl, hrest⟩
      | some g =>
        by_cases hge : g.isEmpty = true
        · simp only [buildSpatial, hfp, hge, if_true] at h
          obtain ⟨pl, hpl, hrest⟩ := ih idx h q hq
          exact ⟨pl, List.mem_cons_of_mem p hpl, hrest⟩
        · simp only [buildSpatial, hfp, hge, if_false] at h
          cases hbs : buildSpatial m2d rest with
          | error e =>
            rw [hbs] at h
            simp at h
          | ok idx2 =>
            rw [hbs] at h
            obtain rfl := (Except.ok.injEq _ _).mp h
            simp only [List.map_cons, List.mem_cons] at hq
            rcases hq with rfl | hq
            · exact ⟨p, List.mem_cons_self p rest, rfl, g, hfp,
                Bool.not_eq_true _ ▸ hge⟩
            · obtain ⟨pl, hpl, hrest⟩ := ih idx2 hbs q hq
              exact ⟨pl, List.mem_cons_of_mem p hpl, hrest⟩

theorem pid_inj_of_nodup (places : List RawPlace)
    (h : (places.map RawPlace.pid).Nodup) :
    ∀ p ∈ places, ∀ r ∈ places, p.pid = r.pid → p = r := by
  induction places with
  | nil => intro p hp; cases hp
  | cons a rest ih =>
    simp only [List.map_cons, List.nodup_cons] at h
    intro p hp r hr heq
    rcases List.mem_cons.mp hp with rfl | hp2
    · rcases List.mem_cons.mp hr with rfl | hr2
      · rfl
      · exact absurd
          (by rw [heq]; exact List.mem_map_of_mem RawPlace.pid hr2) h.1
    · rcases List.mem_cons.mp hr with rfl | hr2
      · exact absurd
          (by rw [← heq]; exact List.mem_map_of_mem RawPlace.pid hp2) h.1
      · exact ih h.2 p hp2 r hr2 heq

/-- C9: a place with zero precise-flagged geometries has a null
footprint with no error, is absent from the spatial index, and remains
present in the names index under each of its name strings and in the
forward and reverse link indexes under each of its cleaned reference
URIs. -/
theorem C9_no_precise_geometry_place (m2d : ℚ → ℚ → ℚ)
    (netlocOf : String → String) (places : List RawPlace) (p : RawPlace)
    (hp : p ∈ places) (hzero : preciseLocs p = [])
    (hnodup : (places.map RawPlace.pid).Nodup)
    (idx : List (String × Geom))
    (hidx : buildSpatial m2d places = Except.ok idx) :
    footprint m2d p = Except.ok none ∧
    p.pid ∉ idx.map Prod.fst ∧
    (∀ n ∈ nameStrings p,
      p.pid ∈ (sget (buildNamesIndex places []) n).getD ∅) ∧
    (∀ uri ∈ cleanRefs p,
      p.pid ∈ (sget (buildLinksIndex places []) uri).getD ∅ ∧
      uri ∈ get_links_by_pid netlocOf (buildLinksByPid places []) p.pid "") := by
  have hfn : footprint m2d p = Except.ok none :=
    footprint_none_of_no_precise m2d p hzero
  refine ⟨hfn, ?_, ?_, ?_⟩
  · intro hmem
    obtain ⟨pl, hpl, hpid, g, hg, _⟩ := buildSpatial_pids m2d places idx hidx
      p.pid hmem
    have : pl = p := pid_inj_of_nodup places hnodup pl hpl p hp hpid
    rw [this, hfn] at hg
    exact Option.noConfusion ((Except.ok.injEq _ _).mp hg)
  · intro n hn
    exact mem_buildNamesIndex places [] p hp n hn
  · intro uri huri
    refine ⟨mem_buildLinksIndex places [] p hp uri huri, ?_⟩
    rw [get_links_by_pid_empty_target]
    exact mem_buildLinksByPid places [] hnodup p hp uri huri

/-- Witness for C9 at the concrete place `placeC9`. -/
theorem C9_witness :
    footprint (fun _ _ => 0) placeC9 = Except.ok none ∧
    placeC9.pid ∈ (sget (buildNamesIndex [placeC9] []) "Alpha").getD ∅ ∧
    placeC9.pid ∈
      (sget (buildLinksIndex [placeC9] []) "https://ex.org/x").getD ∅ := by
  have h := C9_no_precise_geometry_place (fun _ _ => 0) (fun _ => "")
    [placeC9] placeC9 (by decide) (by decide) (by decide) [] (by rfl)
  exact ⟨h.1, h.2.2.1 "Alpha" (by decide),
    (h.2.2.2 "https://ex.org/x" (by decide)).1⟩
